import Mathlib

/-!
Verification development for the xterm-addon-image core algorithms.

Shallow embeddings, each translated from the repository source:
* the streaming base64 decoders (pure-TS `ChunkInplaceDecoder` and the
  wasm-backed `ChunkInplaceDecoder` of base64.wasm),
* the QOI pixel codec (wasm `qoi_encode` / `qoi_decode` and their TS wrappers),
* the IIP `HeaderParser` state machine and its field decoders,
* the `IIPHandler.put` header-validation gate,
* the image storage capacity/eviction engine (modelled from the spec, the
  `ImageStorage` source itself is not part of the source snapshot).

Buffers are modelled as `List Nat` of byte values; machine arithmetic is
carried out in `Nat`/`Int` with explicit `% 2^w` reductions where the source
relies on fixed-width overflow.
-/

namespace XtermImage

/-! ## Base64 alphabet

Source: the `MAP` table
(`'ABCDEFGHIJKLMNOPQRSTUVWXYZabcdefghijklmnopqrstuvwxyz0123456789+/'`)
shared by both base64 decoder variants.  `isB64 c` states that byte `c` is one
of the 64 alphabet symbols and `sixbit c` is its 6-bit value (position in
`MAP`). -/

def isB64 (c : Nat) : Bool :=
  (65 ≤ c && c ≤ 90) || (97 ≤ c && c ≤ 122) || (48 ≤ c && c ≤ 57) || c == 43 || c == 47

def sixbit (c : Nat) : Nat :=
  if 65 ≤ c ∧ c ≤ 90 then c - 65
  else if 97 ≤ c ∧ c ≤ 122 then c - 97 + 26
  else if 48 ≤ c ∧ c ≤ 57 then c - 48 + 52
  else if c = 43 then 62
  else if c = 47 then 63
  else 0

/-! ## Decoder state

Both `ChunkInplaceDecoder` variants keep a byte buffer with a write pointer
`wp`, a read (symbol) pointer `sp` and a decode-output pointer `dp`.  `put`
only ever appends at `wp` and the bulk decode never reads below `sp` nor at or
above the first unread 4-group, so the buffer contents at positions
`[sp, wp)` always equal the corresponding slice of all bytes ever put since
`init`.  We therefore model the input buffer as the list `input` of all bytes
put since `init` (`wp = input.length`) and the decoded region `[0, dp)` as the
list `out` (`dp = out.length`). -/

structure B64St where
  input : List Nat
  sp : Nat
  out : List Nat
  eSize : Nat
  bSize : Nat
deriving Repr, DecidableEq

def B64St.wp (st : B64St) : Nat := st.input.length

/-- `init(size)`: `bSize = size`, `eSize = ceil(size/3)*4`, pointers reset.
(Both variants compute the same sizes.) -/
def b64init (size : Nat) : B64St :=
  { input := [], sp := 0, out := [], eSize := (size + 2) / 3 * 4, bSize := size }

/-! ## Pure-TS decoder (`ChunkInplaceDecoder`, src/unnamed/part_008)

Its decode maps are initialised with `map.fill(3 << 24)` before the alphabet
entries are written, so any non-alphabet byte (including the pad `=` = 61)
carries the error marker into bits 24.. of the accumulator.  A 4-symbol group
`b0 b1 b2 b3` yields `accu = D0[b0]|D1[b1]|D2[b2]|D3[b3]` with shifts
18/12/6/0 and output bytes `accu>>16, accu>>8, accu` — i.e. the three bytes
below, and the error test `accu >> 24` fires exactly when some symbol is
invalid. -/

def decGroups : List Nat → Option (List Nat)
  | [] => some []
  | b0 :: b1 :: b2 :: b3 :: rest =>
    if isB64 b0 && isB64 b1 && isB64 b2 && isB64 b3 then
      match decGroups rest with
      | some tl => some ([sixbit b0 * 4 + sixbit b1 / 16,
                          sixbit b1 % 16 * 16 + sixbit b2 / 4,
                          sixbit b2 % 4 * 64 + sixbit b3] ++ tl)
      | none => none
    else none
  | _ => none

/-- `nsp = (wp - 1) & ~3` (the last complete-or-partial 4-group boundary,
leaving 1–4 trailing symbols for `end`). -/
def b64nsp (wp : Nat) : Nat := (wp - 1) / 4 * 4

/-- `_dec()`: decode all complete 4-groups in `[sp, nsp)`; on an invalid
symbol it returns `true` without committing `sp`/`dp` (partial raw writes
beyond `dp` are never exposed by `data8`). -/
def b64dec (st : B64St) : Bool × B64St :=
  let nsp := b64nsp st.wp
  match decGroups ((st.input.drop st.sp).take (nsp - st.sp)) with
  | none => (true, st)
  | some bytes => (false, { st with sp := nsp, out := st.out ++ bytes })

/-- `put(data, start, end)` of part_008: reject on buffer overflow, else
append; bulk-decode only once more than `2^18` bytes are pending. -/
def b64put (st : B64St) (chunk : List Nat) : Bool × B64St :=
  if chunk.length + st.wp > st.eSize then (true, st)
  else
    let st1 : B64St := { st with input := st.input ++ chunk }
    if st1.wp - st1.sp > 262144 then b64dec st1 else (false, st1)

/-- `_fin(v0,v1,v2,v3)`: decode the trailing group, `v2`/`v3` already
substituted by `=` (61) for missing symbols; returns `dp !== bSize` on
success, `true` on an invalid symbol. -/
def b64fin (st : B64St) (v0 v1 v2 v3 : Nat) : Bool × B64St :=
  if v2 = 61 then
    if isB64 v0 && isB64 v1 then
      let st1 : B64St := { st with out := st.out ++ [sixbit v0 * 4 + sixbit v1 / 16] }
      (decide (st1.out.length ≠ st1.bSize), st1)
    else (true, st)
  else if v3 = 61 then
    if isB64 v0 && isB64 v1 && isB64 v2 then
      let st1 : B64St := { st with out := st.out ++
        [sixbit v0 * 4 + sixbit v1 / 16, sixbit v1 % 16 * 16 + sixbit v2 / 4] }
      (decide (st1.out.length ≠ st1.bSize), st1)
    else (true, st)
  else
    if isB64 v0 && isB64 v1 && isB64 v2 && isB64 v3 then
      let st1 : B64St := { st with out := st.out ++
        [sixbit v0 * 4 + sixbit v1 / 16, sixbit v1 % 16 * 16 + sixbit v2 / 4,
         sixbit v2 % 4 * 64 + sixbit v3] }
      (decide (st1.out.length ≠ st1.bSize), st1)
    else (true, st)

/-- Tail of `end()` after the optional bulk decode: 0 or 1 remaining symbols
fail, otherwise the remainder is finalised through `_fin`. -/
def b64endTail (st : B64St) : Bool × B64St :=
  let rem := st.wp - st.sp
  if rem = 0 then (true, st)
  else if rem = 1 then (true, st)
  else b64fin st (st.input.getD st.sp 0) (st.input.getD (st.sp + 1) 0)
    (if rem > 2 then st.input.getD (st.sp + 2) 0 else 61)
    (if rem = 4 then st.input.getD (st.sp + 3) 0 else 61)

/-- `end()` of part_008. -/
def b64end (st : B64St) : Bool × B64St :=
  if st.wp - st.sp > 4 then
    let r := b64dec st
    if r.1 then (true, r.2) else b64endTail r.2
  else b64endTail st

/-! ## wasm decoder (`base64.wasm`, src/unnamed/part_006)

Its map initialisation writes only the alphabet entries into a
zero-initialised `Uint32Array` — there is no error-marker fill — so a
non-alphabet byte contributes `0` to the accumulator.  `wD0..wD3` are those
maps written out arithmetically (the OR of the C code is addition here
because the contributing bit fields are disjoint). -/

def wD0 (c : Nat) : Nat := if isB64 c then sixbit c * 4 else 0

def wD1 (c : Nat) : Nat := if isB64 c then sixbit c / 16 + sixbit c % 16 * 16 * 256 else 0

def wD2 (c : Nat) : Nat := if isB64 c then sixbit c / 4 * 256 + sixbit c % 4 * 64 * 65536 else 0

def wD3 (c : Nat) : Nat := if isB64 c then sixbit c * 65536 else 0

/-- One wasm 4-group accumulator; output bytes are written little-endian, so
the produced bytes are `accu & FF, accu>>8 & FF, accu>>16 & FF`. -/
def wAccu (b0 b1 b2 b3 : Nat) : Nat := wD0 b0 + wD1 b1 + wD2 b2 + wD3 b3

/-- The wasm `dec()` group loop with its `accu >> 24` test (which, with these
maps, can never fire — kept for faithfulness). -/
def wdecGo : List Nat → Option (List Nat)
  | b0 :: b1 :: b2 :: b3 :: rest =>
    let accu := wAccu b0 b1 b2 b3
    if accu / 16777216 ≠ 0 then none
    else
      match wdecGo rest with
      | some tl => some ([accu % 256, accu / 256 % 256, accu / 65536 % 256] ++ tl)
      | none => none
  | _ => some []

/-- wasm `dec()` over `[sp, nsp)`. -/
def wdec (st : B64St) : Nat × B64St :=
  let nsp := b64nsp st.wp
  match wdecGo ((st.input.drop st.sp).take (nsp - st.sp)) with
  | none => (1, st)
  | some bytes => (0, { st with sp := nsp, out := st.out ++ bytes })

/-- `put` of part_006: overflow check, append, bulk-decode at `>= 2^17`
pending bytes. -/
def wput (st : B64St) (chunk : List Nat) : Nat × B64St :=
  if chunk.length + st.wp > st.eSize then (1, st)
  else
    let st1 : B64St := { st with input := st.input ++ chunk }
    if st1.wp - st1.sp ≥ 131072 then wdec st1 else (0, st1)

/-- Tail of the wasm `end()`: fewer than 2 remaining symbols fail; otherwise
the remainder is decoded with `=`-aware accumulation; the `uint32` store at
`dp` exposes only the first `dp2` bytes; success finally requires
`dp == b_size`. -/
def wendTail (st : B64St) : Nat × B64St :=
  let rem := st.wp - st.sp
  if rem < 2 then (1, st)
  else
    let s0 := st.input.getD st.sp 0
    let s1 := st.input.getD (st.sp + 1) 0
    let s2 := st.input.getD (st.sp + 2) 0
    let s3 := st.input.getD (st.sp + 3) 0
    let accu0 := wD0 s0 + wD1 s1
    let accu1 := if rem > 2 ∧ s2 ≠ 61 then accu0 + wD2 s2 else accu0
    let dp1 : Nat := if rem > 2 ∧ s2 ≠ 61 then 2 else 1
    let accu2 := if rem = 4 ∧ s3 ≠ 61 then accu1 + wD3 s3 else accu1
    let dp2 : Nat := if rem = 4 ∧ s3 ≠ 61 then dp1 + 1 else dp1
    if accu2 / 16777216 ≠ 0 then (1, st)
    else
      let st1 : B64St := { st with out :=
        st.out ++ ([accu2 % 256, accu2 / 256 % 256, accu2 / 65536 % 256].take dp2) }
      (if st1.out.length ≠ st1.bSize then 1 else 0, st1)

/-- wasm `end()`. -/
def wend (st : B64St) : Nat × B64St :=
  if st.wp - st.sp > 4 then
    let r := wdec st
    if r.1 ≠ 0 then (1, r.2) else wendTail r.2
  else wendTail st

/-- Full decode run through the wasm decoder: `init(size)`, a sequence of
`put` chunks (stopping at the first failure, as the IIP handler does), then
`end()`; result code and exposed bytes. -/
def wrunGo : B64St → List (List Nat) → Nat × List Nat
  | st, [] => let r := wend st; (r.1, r.2.out)
  | st, c :: cs =>
    let r := wput st c
    if r.1 ≠ 0 then (r.1, r.2.out) else wrunGo r.2 cs

def wrun (size : Nat) (chunks : List (List Nat)) : Nat × List Nat :=
  wrunGo (b64init size) chunks

/-! ## Base64 lemmas -/

/-- On a list of complete 4-groups, the part_008 bulk decode succeeds exactly
when every byte is a base64 alphabet symbol. -/
theorem decGroups_isSome_iff : ∀ l : List Nat, l.length % 4 = 0 →
    ((decGroups l).isSome ↔ ∀ c ∈ l, isB64 c = true)
  | [] => fun _ => by simp [decGroups]
  | b0 :: b1 :: b2 :: b3 :: rest => fun h => by
    have hr : rest.length % 4 = 0 := by
      simp only [List.length_cons] at h; omega
    have ih := decGroups_isSome_iff rest hr
    simp only [decGroups]
    by_cases hv : (isB64 b0 && isB64 b1 && isB64 b2 && isB64 b3) = true
    · rw [if_pos hv]
      simp only [Bool.and_eq_true] at hv
      cases hd : decGroups rest with
      | none =>
        simp only [hd] at ih
        simp only [Option.isSome_none, Bool.false_eq_true, false_iff] at ih ⊢
        intro hall
        exact ih fun c hc => hall c (by simp [hc])
      | some tl =>
        simp only [hd, Option.isSome_some, true_iff] at ih ⊢
        intro c hc
        simp only [List.mem_cons] at hc
        rcases hc with rfl | rfl | rfl | rfl | hc
        · exact hv.1.1.1
        · exact hv.1.1.2
        · exact hv.1.2
        · exact hv.2
        · exact ih c hc
    · rw [if_neg hv]
      simp only [Option.isSome_none, Bool.false_eq_true, false_iff]
      intro hall
      apply hv
      simp only [Bool.and_eq_true]
      exact ⟨⟨⟨hall b0 (by simp), hall b1 (by simp)⟩, hall b2 (by simp)⟩,
        hall b3 (by simp)⟩
  | [_] => fun h => by simp at h
  | [_, _] => fun h => by simp at h
  | [_, _, _] => fun h => by simp at h

/-- **C3** (code bug evidence).  The wasm base64 decoder of base64.wasm
(src/unnamed/part_006) accepts a payload containing the non-alphabet byte
`!` (33) and reports success: the valid payload `TWFu` (size 3) decodes to
`Man` = `[77, 97, 110]`, and corrupting its second byte to `!` still yields
result code 0 (success) with silently corrupted bytes `[76, 1, 110]` —
its decode maps carry no invalid-symbol marker, contradicting the claim
(and the file's own doc comment "errors out on any non base64 chars"). -/
theorem c3_wasm_silent_corruption :
    isB64 33 = false ∧
    wrun 3 [[84, 87, 70, 117]] = (0, [77, 97, 110]) ∧
    wrun 3 [[84, 33, 70, 117]] = (0, [76, 1, 110]) := by decide

/-- **C4** (counterexample).  The part_008 `put` does not fail on the call
whose chunk contains the first invalid byte: with a freshly initialised
decoder (`init(3)`), putting the 4-byte chunk `T!Fu` — whose second byte 33
is not a base64 symbol — returns the success signal `false`. -/
theorem c4_put_not_immediate :
    isB64 33 = false ∧ (b64put (b64init 3) [84, 33, 70, 117]).1 = false := by decide

/-- **C4** (amended).  part_008 `put` semantics: (a) a call that keeps at
most `2^18` bytes pending returns success regardless of chunk contents;
(b) a chunk overflowing the encoded-size buffer fails immediately with the
state untouched; (c) once more than `2^18` bytes are pending, the call runs
the bulk decode, which fails exactly when some byte among the pending
complete 4-groups is not an alphabet symbol; (d) any failing `put` leaves
the consumed pointer and the exposed decoded output unchanged. -/
theorem c4_put_deferred_validation (st : B64St) (chunk : List Nat) :
    (chunk.length + st.wp ≤ st.eSize → chunk.length + st.wp - st.sp ≤ 262144 →
      (b64put st chunk).1 = false) ∧
    (chunk.length + st.wp > st.eSize → b64put st chunk = (true, st)) ∧
    (st.sp % 4 = 0 → st.sp ≤ st.wp → chunk.length + st.wp ≤ st.eSize →
      chunk.length + st.wp - st.sp > 262144 →
      ((b64put st chunk).1 = true ↔
        ∃ c ∈ ((st.input ++ chunk).drop st.sp).take
            (b64nsp (st.wp + chunk.length) - st.sp), isB64 c = false)) ∧
    ((b64put st chunk).1 = true →
      (b64put st chunk).2.out = st.out ∧ (b64put st chunk).2.sp = st.sp) := by
  have hwp1 : (⟨st.input ++ chunk, st.sp, st.out, st.eSize, st.bSize⟩ : B64St).wp
      = st.wp + chunk.length := by
    simp [B64St.wp]
  refine ⟨?_, ?_, ?_, ?_⟩
  · intro hof hth
    simp only [b64put, hwp1]
    rw [if_neg (by omega)]
    rw [if_neg (by omega)]
  · intro hof
    simp only [b64put]
    rw [if_pos (by omega)]
  · intro hsp4 hsple hof hth
    simp only [b64put, hwp1]
    rw [if_neg (by omega), if_pos (by omega)]
    have hlen : (((st.input ++ chunk).drop st.sp).take
        (b64nsp (st.wp + chunk.length) - st.sp)).length
        = b64nsp (st.wp + chunk.length) - st.sp := by
      have h1 : ((st.input ++ chunk).drop st.sp).length
          = st.wp + chunk.length - st.sp := by
        simp [B64St.wp]
      have h2 : b64nsp (st.wp + chunk.length) ≤ st.wp + chunk.length := by
        unfold b64nsp; omega
      simp only [List.length_take, h1]
      omega
    have hmod : (b64nsp (st.wp + chunk.length) - st.sp) % 4 = 0 := by
      have : b64nsp (st.wp + chunk.length) % 4 = 0 := by
        unfold b64nsp; omega
      omega
    have hiff := decGroups_isSome_iff _ (by rw [hlen]; exact hmod)
    simp only [b64dec, hwp1]
    cases hd : decGroups (((st.input ++ chunk).drop st.sp).take
        (b64nsp (st.wp + chunk.length) - st.sp)) with
    | none =>
      simp only [hd, Option.isSome_none, Bool.false_eq_true, false_iff] at hiff
      simp only [true_iff]
      by_contra hno
      push_neg at hno
      exact hiff fun c hc => by
        have := hno c hc
        revert this
        cases isB64 c <;> simp
    | some tl =>
      simp only [hd, Option.isSome_some, true_iff] at hiff
      simp only [Bool.false_eq_true, false_iff]
      rintro ⟨c, hc, hcb⟩
      rw [hiff c hc] at hcb
      cases hcb
  · intro hfail
    revert hfail
    simp only [b64put, hwp1]
    by_cases hof : chunk.length + st.wp > st.eSize
    · rw [if_pos (by omega)]
      intro _; exact ⟨rfl, rfl⟩
    · rw [if_neg (by omega)]
      by_cases hth : st.wp + chunk.length - st.sp > 262144
      · rw [if_pos (by omega)]
        simp only [b64dec, hwp1]
        cases hd : decGroups (((st.input ++ chunk).drop st.sp).take
            (b64nsp (st.wp + chunk.length) - st.sp)) with
        | none => intro _; exact ⟨rfl, rfl⟩
        | some tl => intro hff; cases hff
      · rw [if_neg (by omega)]
        intro hff; cases hff

/-- **C4** (witness): the amended theorem applied at concrete inputs — a
below-threshold `put` with an invalid byte succeeds (part a) and an
overflowing `put` fails immediately (part b). -/
theorem c4_put_deferred_validation_witness :
    (b64put (b64init 3) [84, 33, 70, 117]).1 = false ∧
    b64put (b64init 3) [84, 33, 70, 117, 0] = (true, b64init 3) :=
  ⟨(c4_put_deferred_validation (b64init 3) [84, 33, 70, 117]).1
      (by decide) (by decide),
    (c4_put_deferred_validation (b64init 3) [84, 33, 70, 117, 0]).2.1 (by decide)⟩

/-! ## IIP header parser
(`HeaderParser` in src/src/InlineImagesProtocolHandler.ts, lines 105–193;
the same class is imported as IIPHeaderParser by the IIP handler.)

The parser's `_buffer` is a fixed `Uint32Array(1024)` written sequentially
from index 0 for each field (`_position` resets to 0 at every field
boundary).  All reads are `subarray(0, _position)` except the FILE marker
check, which reads cells 0–3 and only happens in the START state, where every
cell beyond `_position` still holds the 0 written by `reset()`.  We therefore
model the buffer as the list `field` of the current field's characters
(`_position = field.length`, cells beyond it read as 0).  After a return of
-1 or a payload index, the source leaves `_position` stale; that value is
unobservable (ABORT and END absorb every later `parse` call until `reset`),
so the model simply commits the current locals. -/

/-- Model of the platform `atob` (forgiving-base64): strip ASCII whitespace,
strip up to two trailing pads when the length is a multiple of 4, reject a
remainder of 1 and any non-alphabet byte, decode. -/
def atobCore : List Nat → Option (List Nat)
  | [] => some []
  | [_] => none
  | [b0, b1] =>
    if isB64 b0 && isB64 b1 then some [sixbit b0 * 4 + sixbit b1 / 16] else none
  | [b0, b1, b2] =>
    if isB64 b0 && isB64 b1 && isB64 b2 then
      some [sixbit b0 * 4 + sixbit b1 / 16, sixbit b1 % 16 * 16 + sixbit b2 / 4]
    else none
  | b0 :: b1 :: b2 :: b3 :: rest =>
    if isB64 b0 && isB64 b1 && isB64 b2 && isB64 b3 then
      match atobCore rest with
      | some tl => some ([sixbit b0 * 4 + sixbit b1 / 16,
                          sixbit b1 % 16 * 16 + sixbit b2 / 4,
                          sixbit b2 % 4 * 64 + sixbit b3] ++ tl)
      | none => none
    else none

def atobDec (l : List Nat) : Option (List Nat) :=
  let d := l.filter fun c => !(c == 9 || c == 10 || c == 12 || c == 13 || c == 32)
  let d2 :=
    if d.length % 4 = 0 then
      if d.getLast? = some 61 then
        if d.dropLast.getLast? = some 61 then d.dropLast.dropLast else d.dropLast
      else d
    else d
  atobCore d2

/-- Header field values: `vnull` is the JS `null` written by `_storeKey`;
`vname` holds the bytes produced by `atob` (the subsequent UTF-8
`TextDecoder` is total — replacement characters — so only `atob` can make
`toName` throw, and no claim inspects the decoded text). -/
inductive Fv where
  | vnull
  | vint (n : Nat)
  | vstr (s : List Nat)
  | vname (b : List Nat)
  | vraw (d : List Nat)
deriving Repr, DecidableEq

def keyInline : List Nat := [105, 110, 108, 105, 110, 101]

def keySize : List Nat := [115, 105, 122, 101]

def keyName : List Nat := [110, 97, 109, 101]

def keyWidth : List Nat := [119, 105, 100, 116, 104]

def keyHeight : List Nat := [104, 101, 105, 103, 104, 116]

def keyPAR : List Nat :=
  [112, 114, 101, 115, 101, 114, 118, 101, 65, 115, 112, 101, 99, 116, 82, 97, 116, 105, 111]

def isDigit (c : Nat) : Bool := 48 ≤ c && c ≤ 57

/-- `toInt`: all-digit input (the empty input decodes to 0, as in the
source), otherwise a throw. -/
def toIntDec (l : List Nat) : Option Nat :=
  if l.all isDigit then some (l.foldl (fun v c => v * 10 + (c - 48)) 0) else none

def autoStr : List Nat := [97, 117, 116, 111]

/-- `toSize`: the grammar of the anchored regex
(auto | digits | digits px | digits percent), digits nonempty. -/
def sizeOk (l : List Nat) : Bool :=
  l == autoStr ||
  (!l.isEmpty && l.all isDigit) ||
  (decide (3 ≤ l.length) && (l.take (l.length - 2)).all isDigit &&
    l.drop (l.length - 2) == [112, 120]) ||
  (decide (2 ≤ l.length) && (l.take (l.length - 1)).all isDigit &&
    l.drop (l.length - 1) == [37])

/-- `DECODERS` dispatch: per-field value decoder; unknown keys keep the raw
code-unit slice. -/
def decodeField (key v : List Nat) : Option Fv :=
  if key = keyInline ∨ key = keySize ∨ key = keyPAR then (toIntDec v).map Fv.vint
  else if key = keyWidth ∨ key = keyHeight then
    if sizeOk v then some (Fv.vstr v) else none
  else if key = keyName then (atobDec v).map Fv.vname
  else some (Fv.vraw v)

/-- JS object field write: update in place or append. -/
def setField (fields : List (List Nat × Fv)) (k : List Nat) (v : Fv) :
    List (List Nat × Fv) :=
  if fields.any fun p => p.1 == k then
    fields.map fun p => if p.1 == k then (k, v) else p
  else fields ++ [(k, v)]

def getField (fields : List (List Nat × Fv)) (k : List Nat) : Option Fv :=
  (fields.find? fun p => p.1 == k).map Prod.snd

inductive HSt where
  | start | abortS | key | value | endS
deriving Repr, DecidableEq

structure HP where
  hstate : HSt
  field : List Nat
  key : List Nat
  fields : List (List Nat × Fv)
deriving Repr, DecidableEq

def hpReset : HP := { hstate := HSt.start, field := [], key := [], fields := [] }

/-- `_storeValue`: needs a current key; runs the field decoder, a throw
aborts. -/
def storeValue (st : HP) : Option HP :=
  if st.key = [] then none
  else
    match decodeField st.key st.field with
    | some v => some { st with fields := setField st.fields st.key v }
    | none => none

/-- `_storeKey`: a nonempty key is recorded and pre-written as `null`. -/
def storeKey (st : HP) : Option HP :=
  if st.field = [] then none
  else some { st with key := st.field, fields := setField st.fields st.field Fv.vnull }

/-- The `parse` character loop (switch over `;`, `=`, `:`, default), `i`
tracking the absolute index for the payload-start return value. -/
def parseGo : HP → Nat → List Nat → Int × HP
  | st, _, [] => (-2, st)
  | st, i, c :: rest =>
    if c = 59 then
      match storeValue st with
      | none => (-1, { st with hstate := HSt.abortS })
      | some st1 => parseGo { st1 with hstate := HSt.key, field := [] } (i + 1) rest
    else if c = 61 then
      if st.hstate = HSt.start then
        if st.field.getD 0 0 = 70 ∧ st.field.getD 1 0 = 105 ∧
            st.field.getD 2 0 = 108 ∧ st.field.getD 3 0 = 101 then
          parseGo { st with hstate := HSt.key, field := [] } (i + 1) rest
        else (-1, { st with hstate := HSt.abortS })
      else if st.hstate = HSt.key then
        match storeKey st with
        | none => (-1, { st with hstate := HSt.abortS })
        | some st1 => parseGo { st1 with hstate := HSt.value, field := [] } (i + 1) rest
      else if st.hstate = HSt.value then
        if st.field.length ≥ 1024 then (-1, { st with hstate := HSt.abortS })
        else parseGo { st with field := st.field ++ [c] } (i + 1) rest
      else parseGo st (i + 1) rest
    else if c = 58 then
      if st.hstate = HSt.value then
        match storeValue st with
        | none => (-1, { st with hstate := HSt.abortS })
        | some st1 => ((i : Int) + 1, { st1 with hstate := HSt.endS })
      else ((i : Int) + 1, { st with hstate := HSt.endS })
    else
      if st.field.length ≥ 1024 then (-1, { st with hstate := HSt.abortS })
      else parseGo { st with field := st.field ++ [c] } (i + 1) rest

/-- `parse(data, start, end)`: ABORT/END are absorbing (-1), a START state
with more than 6 buffered characters is rejected, otherwise the loop runs
over `data[start..end)`. -/
def hpParse (st : HP) (data : List Nat) (start fin : Nat) : Int × HP :=
  if st.hstate = HSt.abortS ∨ st.hstate = HSt.endS then (-1, st)
  else if st.hstate = HSt.start ∧ st.field.length > 6 then (-1, st)
  else parseGo st start ((data.drop start).take (fin - start))

/-- The test input
`File=name=Rm9v;size=100;width=auto;height=auto;inline=1:` (char codes);
the elided `name=...` of the claim instantiated with the concrete valid
base64 name `Rm9v`. -/
def c6Input : List Nat :=
  [70, 105, 108, 101, 61, 110, 97, 109, 101, 61, 82, 109, 57, 118, 59, 115,
   105, 122, 101, 61, 49, 48, 48, 59, 119, 105, 100, 116, 104, 61, 97, 117,
   116, 111, 59, 104, 101, 105, 103, 104, 116, 61, 97, 117, 116, 111, 59,
   105, 110, 108, 105, 110, 101, 61, 49, 58]

/-- Feeding a run of plain (non-delimiter) characters that pushes the field
buffer past `MAX_FIELDCHARS` (1024) makes the loop abort, leaving the stored
fields and key untouched. -/
theorem parseGo_overflow : ∀ (chars : List Nat) (st : HP) (i : Nat),
    (st.hstate = HSt.key ∨ st.hstate = HSt.value) →
    (∀ c ∈ chars, c ≠ 58 ∧ c ≠ 59 ∧ c ≠ 61) →
    st.field.length ≤ 1024 → 1024 < st.field.length + chars.length →
    (parseGo st i chars).1 = -1 ∧
    (parseGo st i chars).2.hstate = HSt.abortS ∧
    (parseGo st i chars).2.fields = st.fields ∧
    (parseGo st i chars).2.key = st.key
  | [], _, _, _, _, hle, hgt => by simp only [List.length_nil] at hgt; omega
  | c :: cs, st, i, hst, hpl, hle, hgt => by
    obtain ⟨h58, h59, h61⟩ := hpl c (by simp)
    by_cases hov : st.field.length ≥ 1024
    · simp only [parseGo]
      rw [if_neg h59, if_neg h61, if_neg h58, if_pos hov]
      exact ⟨rfl, rfl, rfl, rfl⟩
    · have ih := parseGo_overflow cs { st with field := st.field ++ [c] } (i + 1)
        hst (fun d hd => hpl d (by simp [hd]))
        (by simp only [List.length_append, List.length_cons, List.length_nil]; omega)
        (by simp only [List.length_append, List.length_cons, List.length_nil] at hgt ⊢
            omega)
      simp only [parseGo]
      rw [if_neg h59, if_neg h61, if_neg h58, if_neg hov]
      exact ih

/-- **C6**.  In the VALUE state, a `:` finalizes the last field through its
decoder, moves the parser to END and returns the index of the byte right
after the `:` (the first payload byte); concretely, the header
`File=name=Rm9v;size=100;width=auto;height=auto;inline=1:` (the claim's
elided name instantiated with the valid base64 `Rm9v`) parses to
`size = 100`, `inline = 1`, `width = "auto"`, with the returned index 56
pointing exactly at the first byte after the `:`. -/
theorem c6_colon_finalizes (st : HP) (pre rest : List Nat) (st1 : HP)
    (hv : st.hstate = HSt.value) (hs : storeValue st = some st1) :
    hpParse st (pre ++ 58 :: rest) pre.length (pre.length + 1 + rest.length)
        = ((pre.length : Int) + 1, { st1 with hstate := HSt.endS }) ∧
    (hpParse hpReset c6Input 0 56).1 = 56 ∧
    (hpParse hpReset c6Input 0 56).2.hstate = HSt.endS ∧
    getField (hpParse hpReset c6Input 0 56).2.fields keySize = some (Fv.vint 100) ∧
    getField (hpParse hpReset c6Input 0 56).2.fields keyInline = some (Fv.vint 1) ∧
    getField (hpParse hpReset c6Input 0 56).2.fields keyWidth
      = some (Fv.vstr autoStr) := by
  refine ⟨?_, by decide, by decide, by decide, by decide, by decide⟩
  simp only [hpParse, hv]
  rw [if_neg (by simp), if_neg (by simp)]
  have hdrop : (pre ++ 58 :: rest).drop pre.length = 58 :: rest :=
    List.drop_left pre _
  have harith : pre.length + 1 + rest.length - pre.length = rest.length + 1 := by
    omega
  have htake : (58 :: rest).take (rest.length + 1) = 58 :: rest :=
    List.take_of_length_le (by simp)
  rw [hdrop, harith, htake]
  simp only [parseGo, hv, hs]
  norm_num

/-- **C7**.  (a) Any key or value overflowing the 1024-character field
buffer aborts the whole parse: the call returns the failure sentinel -1,
the parser enters ABORT, and no partial field is stored; (b) a field value
rejected by its per-field decoder (a throwing `DECODERS` entry) likewise
aborts at the closing `;` with no field stored; (c) once aborted, every
subsequent `parse` call returns -1 and changes nothing. -/
theorem c7_overflow_and_decoder_abort :
    (∀ (st : HP) (chars : List Nat),
      (st.hstate = HSt.key ∨ st.hstate = HSt.value) →
      (∀ c ∈ chars, c ≠ 58 ∧ c ≠ 59 ∧ c ≠ 61) →
      st.field.length ≤ 1024 → 1024 < st.field.length + chars.length →
      (hpParse st chars 0 chars.length).1 = -1 ∧
      (hpParse st chars 0 chars.length).2.hstate = HSt.abortS ∧
      (hpParse st chars 0 chars.length).2.fields = st.fields) ∧
    (∀ (st : HP) (rest : List Nat),
      st.hstate = HSt.value → decodeField st.key st.field = none →
      (hpParse st (59 :: rest) 0 (rest.length + 1)).1 = -1 ∧
      (hpParse st (59 :: rest) 0 (rest.length + 1)).2.hstate = HSt.abortS ∧
      (hpParse st (59 :: rest) 0 (rest.length + 1)).2.fields = st.fields) ∧
    (∀ (st : HP) (data : List Nat) (s e : Nat),
      st.hstate = HSt.abortS → hpParse st data s e = (-1, st)) := by
  refine ⟨?_, ?_, ?_⟩
  · intro st chars hst hpl hle hgt
    have hred : hpParse st chars 0 chars.length = parseGo st 0 chars := by
      simp only [hpParse]
      rw [if_neg (by rcases hst with h | h <;> simp [h]),
        if_neg (by rcases hst with h | h <;> simp [h])]
      simp
    rw [hred]
    have h := parseGo_overflow chars st 0 hst hpl hle hgt
    exact ⟨h.1, h.2.1, h.2.2.1⟩
  · intro st rest hv hdec
    have hred : hpParse st (59 :: rest) 0 (rest.length + 1)
        = parseGo st 0 (59 :: rest) := by
      simp only [hpParse]
      rw [if_neg (by simp [hv]), if_neg (by simp [hv])]
      simp
    rw [hred]
    simp only [parseGo, if_pos rfl, storeValue, hdec]
    by_cases hk : st.key = []
    · rw [if_pos hk]
      exact ⟨rfl, rfl, rfl⟩
    · rw [if_neg hk]
      exact ⟨rfl, rfl, rfl⟩
  · intro st data s e hab
    simp [hpParse, hab]

set_option maxRecDepth 8192 in
/-- **C7** (witness): a VALUE field already holding 1024 characters aborts
on the next plain character; a `size` value `a` (non-digit) aborts at the
closing `;`. -/
theorem c7_overflow_witness :
    (hpParse ⟨HSt.value, List.replicate 1024 97, keySize, []⟩ [97] 0 1).1 = -1 ∧
    (hpParse ⟨HSt.value, [97], keySize, []⟩ [59] 0 1).2.hstate = HSt.abortS :=
  ⟨(c7_overflow_and_decoder_abort.1 ⟨HSt.value, List.replicate 1024 97, keySize, []⟩
      [97] (Or.inr rfl) (by decide)
      (show (List.replicate 1024 97).length ≤ 1024 by
        rw [List.length_replicate])
      (show 1024 < (List.replicate 1024 97).length + ([97] : List Nat).length by
        rw [List.length_replicate]; simp)).1,
   (c7_overflow_and_decoder_abort.2.1 ⟨HSt.value, [97], keySize, []⟩ []
      rfl (by decide)).2.1⟩

/-- **C6** (witness): the general `:` rule applied at a concrete VALUE state
holding field `1` under key `inline`. -/
theorem c6_colon_witness :
    hpParse ⟨HSt.value, [49], keyInline, []⟩ [58] 0 1
      = (1, ⟨HSt.endS, [49], keyInline, [(keyInline, Fv.vint 1)]⟩) := by
  have h := (c6_colon_finalizes ⟨HSt.value, [49], keyInline, []⟩ [] []
    ⟨HSt.value, [49], keyInline, [(keyInline, Fv.vint 1)]⟩ rfl (by decide)).1
  simpa using h

/-! ## IIP ingestion handler (`IIPHandler.put`, src/unnamed/part_009)

Only the ingestion gate is modelled: header parsing, the inline/size/limit
validation, base64-decoder initialisation and the first payload `put`.
`release()` is modelled at the observable level (both of its branches leave
the decoder with empty exposed data and zeroed pointers; buffer retention is
an allocation detail). -/

def b64release (st : B64St) : B64St := { st with input := [], sp := 0, out := [] }

/-- `Object.assign({}, DEFAULT_HEADER, fields)` restricted to an integer
field: a stored `vint` wins, a stored `null` is falsy at the gate (modelled
as 0 — `inline` and `size` can only be `vint` or `vnull`), an absent key
falls back to the default. -/
def headerIntField (fields : List (List Nat × Fv)) (k : List Nat) (dflt : Nat) : Nat :=
  match getField fields k with
  | some (Fv.vint n) => n
  | some _ => 0
  | none => dflt

structure IIPOpts where
  iipSizeLimit : Nat
deriving Repr, DecidableEq

structure IIPSt where
  aborted : Bool
  hp : HP
  headerInline : Nat
  headerSize : Nat
  decInited : Option Nat
  dec : B64St
deriving Repr, DecidableEq

def iipFresh : IIPSt :=
  { aborted := false, hp := hpReset, headerInline := 0, headerSize := 0,
    decInited := none, dec := b64init 0 }

/-- `IIPHandler.put(data, start, end)`. -/
def iipPut (opts : IIPOpts) (st : IIPSt) (data : List Nat) (start fin : Nat) : IIPSt :=
  if st.aborted then st
  else if st.hp.hstate = HSt.endS then
    let r := wput st.dec ((data.drop start).take (fin - start))
    if r.1 ≠ 0 then { st with dec := b64release r.2, aborted := true }
    else { st with dec := r.2 }
  else
    let pr := hpParse st.hp data start fin
    if pr.1 = -1 then { st with hp := pr.2, aborted := true }
    else if pr.1 > 0 then
      let inl := headerIntField pr.2.fields keyInline 0
      let sz := headerIntField pr.2.fields keySize 0
      if inl = 0 ∨ sz = 0 ∨ sz > opts.iipSizeLimit then
        { st with hp := pr.2, headerInline := inl, headerSize := sz, aborted := true }
      else
        let r := wput (b64init sz) ((data.drop pr.1.toNat).take (fin - pr.1.toNat))
        if r.1 ≠ 0 then
          { st with hp := pr.2, headerInline := inl, headerSize := sz, decInited := some sz, dec := b64release r.2, aborted := true }
        else
          { st with hp := pr.2, headerInline := inl, headerSize := sz, decInited := some sz, dec := r.2 }
    else { st with hp := pr.2 }

/-- **C10**.  When a `put` call completes the header parse, the attempt is
aborted with the base64 decoder left uninitialised (no payload decoding
begins) unless the merged header has a nonzero `inline` and a size with
`0 < size ≤ iipSizeLimit`; when the header is acceptable the decoder is
initialised with exactly the declared size. -/
theorem c10_header_gate (opts : IIPOpts) (st : IIPSt) (data : List Nat)
    (start fin : Nat)
    (hab : st.aborted = false) (hend : ¬ st.hp.hstate = HSt.endS)
    (hinit : st.decInited = none)
    (hpos : (hpParse st.hp data start fin).1 > 0) :
    ((headerIntField (hpParse st.hp data start fin).2.fields keyInline 0 = 0 ∨
      headerIntField (hpParse st.hp data start fin).2.fields keySize 0 = 0 ∨
      headerIntField (hpParse st.hp data start fin).2.fields keySize 0
        > opts.iipSizeLimit) →
      (iipPut opts st data start fin).aborted = true ∧
      (iipPut opts st data start fin).decInited = none) ∧
    (¬ headerIntField (hpParse st.hp data start fin).2.fields keyInline 0 = 0 →
      0 < headerIntField (hpParse st.hp data start fin).2.fields keySize 0 →
      headerIntField (hpParse st.hp data start fin).2.fields keySize 0
        ≤ opts.iipSizeLimit →
      (iipPut opts st data start fin).decInited
        = some (headerIntField (hpParse st.hp data start fin).2.fields keySize 0)) := by
  have hne : ¬ (hpParse st.hp data start fin).1 = -1 := by omega
  constructor
  · intro hgate
    simp only [iipPut, hab, Bool.false_eq_true, if_false, hend, if_false,
      if_neg hne, if_pos hpos, if_pos hgate]
    exact ⟨trivial, hinit⟩
  · intro h1 h2 h3
    have hgate : ¬ (headerIntField (hpParse st.hp data start fin).2.fields keyInline 0 = 0 ∨
        headerIntField (hpParse st.hp data start fin).2.fields keySize 0 = 0 ∨
        headerIntField (hpParse st.hp data start fin).2.fields keySize 0
          > opts.iipSizeLimit) := by
      push_neg
      exact ⟨h1, by omega, by omega⟩
    simp only [iipPut, hab, Bool.false_eq_true, if_false, hend, if_false,
      if_neg hne, if_pos hpos, if_neg hgate]
    split <;> rfl

/-- **C10** (witness): the header `File=inline=1;size=3:` with payload
`TWFu` (size 3 within limit 100) initialises the decoder with size 3; the
header `File=size=3:` (inline defaulting to 0) aborts with the decoder left
uninitialised. -/
theorem c10_header_gate_witness :
    (iipPut ⟨100⟩ iipFresh
      [70, 105, 108, 101, 61, 105, 110, 108, 105, 110, 101, 61, 49, 59, 115,
       105, 122, 101, 61, 51, 58, 84, 87, 70, 117] 0 25).decInited = some 3 ∧
    (iipPut ⟨100⟩ iipFresh
      [70, 105, 108, 101, 61, 115, 105, 122, 101, 61, 51, 58, 65, 65, 65, 65]
      0 16).aborted = true :=
  ⟨(c10_header_gate ⟨100⟩ iipFresh
      [70, 105, 108, 101, 61, 105, 110, 108, 105, 110, 101, 61, 49, 59, 115,
       105, 122, 101, 61, 51, 58, 84, 87, 70, 117] 0 25
      rfl (by decide) rfl (by decide)).2 (by decide) (by decide) (by decide),
   ((c10_header_gate ⟨100⟩ iipFresh
      [70, 105, 108, 101, 61, 115, 105, 122, 101, 61, 51, 58, 65, 65, 65, 65]
      0 16 rfl (by decide) rfl (by decide)).1 (by decide)).1⟩

/-! ## Image storage capacity / eviction engine (spec-modelled) -/

/-- Modelled from the spec: the `ImageStorage` source file is missing from
the source snapshot (only its browser tests in part_000 and its callers in
part_009 are present), so the capacity engine is modelled from spec
section 4.4 with the section 8/9 reading: images are a FIFO list of byte
sizes; insertion evicts oldest entries while the present usage plus the
incoming size still exceeds the capacity and entries remain (so an image
larger than the capacity evicts everything else and is then stored itself);
`setLimit` evicts synchronously until compliant. -/
structure StoreSt where
  entries : List Nat
  limit : Nat
deriving Repr, DecidableEq

def storeUsage (st : StoreSt) : Nat := st.entries.sum

/-- The eviction loop: drop oldest entries while `usage + sz > limit` and
something is left to drop. -/
def evictFor (limit sz : Nat) : List Nat → List Nat
  | [] => []
  | e :: rest =>
    if limit < (e :: rest).sum + sz then evictFor limit sz rest else e :: rest

def addImage (st : StoreSt) (sz : Nat) : StoreSt :=
  { st with entries := evictFor st.limit sz st.entries ++ [sz] }

def setLimit (st : StoreSt) (n : Nat) : StoreSt :=
  { entries := evictFor n 0 st.entries, limit := n }

inductive StoreOp where
  | add (sz : Nat)
  | setLim (n : Nat)
deriving Repr, DecidableEq

def storeApply (st : StoreSt) : StoreOp → StoreSt
  | StoreOp.add sz => addImage st sz
  | StoreOp.setLim n => setLimit st n

def storeRun (cap : Nat) (ops : List StoreOp) : StoreSt :=
  ops.foldl storeApply { entries := [], limit := cap }

theorem evictFor_sum_le (limit sz : Nat) :
    ∀ l : List Nat, (evictFor limit sz l).sum + sz ≤ limit ∨ evictFor limit sz l = []
  | [] => Or.inr rfl
  | e :: rest => by
    simp only [evictFor]
    by_cases h : limit < (e :: rest).sum + sz
    · rw [if_pos h]; exact evictFor_sum_le limit sz rest
    · rw [if_neg h]; exact Or.inl (by omega)

theorem evictFor_all_gone (limit sz : Nat) (h : limit < sz) :
    ∀ l : List Nat, evictFor limit sz l = []
  | [] => rfl
  | e :: rest => by
    simp only [evictFor]
    rw [if_pos (by simp only [List.sum_cons]; omega)]
    exact evictFor_all_gone limit sz h rest

theorem evictFor_drop (limit sz : Nat) :
    ∀ l : List Nat, ∃ k, evictFor limit sz l = l.drop k
  | [] => ⟨0, rfl⟩
  | e :: rest => by
    simp only [evictFor]
    by_cases h : limit < (e :: rest).sum + sz
    · rw [if_pos h]
      obtain ⟨k, hk⟩ := evictFor_drop limit sz rest
      exact ⟨k + 1, hk⟩
    · rw [if_neg h]; exact ⟨0, rfl⟩

/-- The storage invariant: usage within the capacity, except when the store
holds exactly one image that alone exceeds it. -/
def StoreInv (st : StoreSt) : Prop :=
  storeUsage st ≤ st.limit ∨ ∃ s, st.limit < s ∧ st.entries = [s]

theorem storeApply_inv (st : StoreSt) (op : StoreOp) (_ : StoreInv st) :
    StoreInv (storeApply st op) := by
  cases op with
  | add sz =>
    by_cases hsz : sz ≤ st.limit
    · rcases evictFor_sum_le st.limit sz st.entries with h | h
      · exact Or.inl (by simp [storeApply, addImage, storeUsage]; omega)
      · exact Or.inl (by simp [storeApply, addImage, storeUsage, h]; omega)
    · refine Or.inr ⟨sz, by simp only [storeApply, addImage]; omega, ?_⟩
      simp [storeApply, addImage, evictFor_all_gone st.limit sz (by omega)]
  | setLim n =>
    rcases evictFor_sum_le n 0 st.entries with h | h
    · exact Or.inl (by simp [storeApply, setLimit, storeUsage]; omega)
    · exact Or.inl (by simp [storeApply, setLimit, storeUsage, h])

theorem storeRun_inv (cap : Nat) (ops : List StoreOp) : StoreInv (storeRun cap ops) := by
  have h : ∀ (l : List StoreOp) (st : StoreSt), StoreInv st →
      StoreInv (l.foldl storeApply st) := by
    intro l
    induction l with
    | nil => exact fun st h => h
    | cons op rest ih =>
      intro st hst
      exact ih (storeApply st op) (storeApply_inv st op hst)
  exact h ops _ (Or.inl (by simp [storeUsage]))

/-- **C2** (counterexample).  Inserting a single image of size 20 into an
empty store with capacity 10 completes with usage 20 > 10: accounted usage
can exceed the configured capacity, refuting the claim's headline
invariant. -/
theorem c2_usage_can_exceed_limit :
    ¬ storeUsage (addImage { entries := [], limit := 10 } 20)
        ≤ (addImage { entries := [], limit := 10 } 20).limit := by decide

/-- **C2** (amended).  For every sequence of insertions and capacity
changes, usage stays within the capacity except in exactly one situation:
the store holds a single image that alone exceeds the capacity.  In detail:
(a) the invariant holds after any operation sequence from an empty store;
(b) inserting an image with size ≤ capacity leaves usage ≤ capacity;
(c) inserting a single image larger than the capacity evicts everything
else and leaves usage equal to that image's own size; (d) eviction is
oldest-first: the surviving entries are a drop of the previous FIFO list
plus the new image; (e) lowering the capacity evicts synchronously, so an
immediately following usage query is already ≤ the new capacity. -/
theorem c2_capacity_amended :
    (∀ (cap : Nat) (ops : List StoreOp),
      storeUsage (storeRun cap ops) ≤ (storeRun cap ops).limit ∨
      ∃ s, (storeRun cap ops).limit < s ∧ (storeRun cap ops).entries = [s]) ∧
    (∀ (st : StoreSt) (sz : Nat), sz ≤ st.limit →
      storeUsage (addImage st sz) ≤ st.limit) ∧
    (∀ (st : StoreSt) (sz : Nat), st.limit < sz →
      storeUsage (addImage st sz) = sz ∧ (addImage st sz).entries = [sz]) ∧
    (∀ (st : StoreSt) (sz : Nat),
      ∃ k, (addImage st sz).entries = st.entries.drop k ++ [sz]) ∧
    (∀ (st : StoreSt) (n : Nat), storeUsage (setLimit st n) ≤ n) := by
  refine ⟨fun cap ops => storeRun_inv cap ops, ?_, ?_, ?_, ?_⟩
  · intro st sz hsz
    rcases evictFor_sum_le st.limit sz st.entries with h | h
    · simp [addImage, storeUsage]; omega
    · simp [addImage, storeUsage, h]; omega
  · intro st sz hsz
    constructor
    · simp [addImage, storeUsage, evictFor_all_gone st.limit sz hsz]
    · simp [addImage, evictFor_all_gone st.limit sz hsz]
  · intro st sz
    obtain ⟨k, hk⟩ := evictFor_drop st.limit sz st.entries
    exact ⟨k, by simp [addImage, hk]⟩
  · intro st n
    rcases evictFor_sum_le n 0 st.entries with h | h
    · simp [setLimit, storeUsage]; omega
    · simp [setLimit, storeUsage, h]

/-- **C2** (witness): the amended theorem at concrete stores — a fitting
insert stays within capacity, an oversized insert leaves exactly its own
size, and a synchronous limit lowering is immediately reflected. -/
theorem c2_capacity_amended_witness :
    storeUsage (addImage { entries := [3, 4], limit := 10 } 5) ≤ 10 ∧
    storeUsage (addImage { entries := [3, 4], limit := 10 } 20) = 20 ∧
    storeUsage (setLimit { entries := [3, 4], limit := 10 } 1) ≤ 1 :=
  ⟨c2_capacity_amended.2.1 { entries := [3, 4], limit := 10 } 5 (by decide),
   (c2_capacity_amended.2.2.1 { entries := [3, 4], limit := 10 } 20 (by decide)).1,
   c2_capacity_amended.2.2.2.2 { entries := [3, 4], limit := 10 } 1⟩

/-! ## QOI pixel codec

Encoder: the wasm `qoi_encode.enc` embedded in src (QoiEncoder).  Decoder:
the wasm `qoi_decode.dec` of src/unnamed/part_006 with its TS wrapper
`QoiDecoder.decode`.  Pixels are `qoi_rgba_t` unions (bytes r,g,b,a in
memory order); the 64-entry cache is a list.  The C encoder computes the
channel deltas in `unsigned int`, hence the explicit mod-`2^32` arithmetic;
the opcode bytes assemble disjoint bit fields, so the C bitwise ORs are
written as additions. -/

structure Px where
  r : Nat
  g : Nat
  b : Nat
  a : Nat
deriving Repr, DecidableEq

/-- `QOI_COLOR_HASH`: `(r*3 + g*5 + b*7 + a*11) & 63`. -/
def pxHash (p : Px) : Nat := (p.r * 3 + p.g * 5 + p.b * 7 + p.a * 11) % 64

/-- `px.v = 0xFF000000`: the initial previous pixel (0,0,0,255). -/
def initPx : Px := ⟨0, 0, 0, 255⟩

def zeroPx : Px := ⟨0, 0, 0, 0⟩

/-- `memset(index, 0, ...)`: the cache starts as 64 zero pixels. -/
def initIdx : List Px := List.replicate 64 zeroPx

def idxGet (idx : List Px) (i : Nat) : Px := idx.getD i zeroPx

def idxSet (idx : List Px) (i : Nat) (p : Px) : List Px := idx.set i p

def U32 : Nat := 4294967296

/-- `unsigned int` subtraction (both arguments below `2^32`). -/
def u32sub (x y : Nat) : Nat := (x + U32 - y) % U32

/-- The encoder's per-pixel opcode for a non-run, non-cache-hit pixel:
diff, then luma, then literal RGB (alpha unchanged) or literal RGBA. -/
def encPx (px prev : Px) : List Nat :=
  if px.a = prev.a then
    let vr := u32sub px.r prev.r
    let vg := u32sub px.g prev.g
    let vb := u32sub px.b prev.b
    let vgr := u32sub vr vg
    let vgb := u32sub vb vg
    if (vr + 2) % U32 < 4 ∧ (vg + 2) % U32 < 4 ∧ (vb + 2) % U32 < 4 then
      [64 + (vr + 2) % U32 * 16 + (vg + 2) % U32 * 4 + (vb + 2) % U32]
    else if (vgr + 8) % U32 < 16 ∧ (vg + 32) % U32 < 64 ∧ (vgb + 8) % U32 < 16 then
      [128 + (vg + 32) % U32, (vgr + 8) % U32 * 16 + (vgb + 8) % U32]
    else
      [254, px.r, px.g, px.b]
  else
    [255, px.r, px.g, px.b, px.a]

/-- The encoder pixel loop with its run accumulator: a run is extended while
the pixel repeats, flushed as `0xC0 | (run-1)` at length 62 or at the end of
the stream; otherwise a pending run is flushed and the pixel becomes a cache
hit (`0x00 | hash`, no cache write) or a fresh opcode (cache write). -/
def encLoop (idx : List Px) (prev : Px) (run : Nat) : List Px → List Nat
  | [] => []
  | px :: rest =>
    if px = prev then
      if run + 1 = 62 ∨ rest = [] then (192 + run) :: encLoop idx prev 0 rest
      else encLoop idx prev (run + 1) rest
    else
      (if run ≠ 0 then [192 + (run - 1)] else []) ++
      (if idxGet idx (pxHash px) = px then
        pxHash px :: encLoop idx px 0 rest
      else encPx px prev ++ encLoop (idxSet idx (pxHash px) px) px 0 rest)

def be32 (n : Nat) : List Nat :=
  [n / 16777216 % 256, n / 65536 % 256, n / 256 % 256, n % 256]

/-- 14-byte header: magic `qoif`, big-endian width and height, channels 4,
colorspace 0 (the wasm encoder stores the magic and `bswap32` dimensions as
little-endian words, giving exactly these bytes). -/
def qoiHeader (w h : Nat) : List Nat :=
  [113, 111, 105, 102] ++ be32 w ++ be32 h ++ [4, 0]

/-- 8-byte end marker (words 0 and 0x01000000 little-endian). -/
def qoiTrailer : List Nat := [0, 0, 0, 0, 0, 0, 0, 1]

/-- RGBA byte buffer to pixels (4 bytes per pixel, memory order r,g,b,a). -/
def bytesToPx : List Nat → List Px
  | r :: g :: b :: a :: rest => ⟨r, g, b, a⟩ :: bytesToPx rest
  | _ => []

def pxToBytes : List Px → List Nat
  | [] => []
  | p :: rest => p.r :: p.g :: p.b :: p.a :: pxToBytes rest

/-- `QoiEncoder.encode(d, width, height)`: header, opcode stream over the
first `width*height` pixels of `d`, end marker. -/
def qoiEncode (d : List Nat) (w h : Nat) : List Nat :=
  qoiHeader w h ++ encLoop initIdx initPx 0 (bytesToPx (d.take (w * h * 4))) ++ qoiTrailer

/-- The decoder's run emission `do { *dst++ = px; } while (lo-- && dst <
dst_end)`: always emits once, then continues while the 6-bit counter is
nonzero and the destination has not reached its end (`space` = pixels left
before `dst_end`). -/
def runEmit (p : Px) : Nat → Nat → List Px
  | 0, _ => [p]
  | lo + 1, space => p :: (if 1 < space then runEmit p lo (space - 1) else [])

/-- `QOI_OP_DIFF`: per-channel delta `((lo >> s) & 3) - 2` added to the
previous pixel in `unsigned char` arithmetic (`+254` is the mod-256 form of
`-2`). -/
def diffPx (px : Px) (b : Nat) : Px :=
  let lo := b % 64
  ⟨(px.r + lo / 16 % 4 + 254) % 256, (px.g + lo / 4 % 4 + 254) % 256,
   (px.b + lo % 4 + 254) % 256, px.a⟩

/-- `QOI_OP_LUMA`: `vg = lo - 32`, red/blue re-based with `vg - 8 + nibble`
(`+224` and `+216` are the mod-256 forms of `-32` and `-40`). -/
def lumaPx (px : Px) (b b2 : Nat) : Px :=
  let lo := b % 64
  ⟨(px.r + lo + b2 % 256 / 16 + 216) % 256, (px.g + lo + 224) % 256,
   (px.b + lo + b2 % 256 % 16 + 216) % 256, px.a⟩

/-- The wasm `qoi_decode.dec` opcode loop over the byte stream between
header and end marker.  Returns the emitted pixels together with the final
cache and previous pixel.  Multi-byte operands read past the end of the
stream are unspecified memory in the C code; the model reads 0. -/
def decLoop (idx : List Px) (px : Px) (space : Nat) (bytes : List Nat) :
    List Px × List Px × Px :=
  match bytes with
  | [] => ([], idx, px)
  | b1 :: bs =>
    let b := b1 % 256
    if b < 64 then
      let p := idxGet idx b
      let r := decLoop idx p (space - 1) bs
      (p :: r.1, r.2)
    else if b < 128 then
      let p := diffPx px b
      let r := decLoop (idxSet idx (pxHash p) p) p (space - 1) bs
      (p :: r.1, r.2)
    else if b < 192 then
      let p := lumaPx px b (bs.getD 0 0)
      let r := decLoop (idxSet idx (pxHash p) p) p (space - 1) (bs.drop 1)
      (p :: r.1, r.2)
    else if b < 254 then
      let out := runEmit px (b % 64) space
      let r := decLoop (idxSet idx (pxHash px) px) px (space - out.length) bs
      (out ++ r.1, r.2)
    else if b = 254 then
      let p : Px := ⟨bs.getD 0 0 % 256, bs.getD 1 0 % 256, bs.getD 2 0 % 256, px.a⟩
      let r := decLoop (idxSet idx (pxHash p) p) p (space - 1) (bs.drop 3)
      (p :: r.1, r.2)
    else
      let p : Px := ⟨bs.getD 0 0 % 256, bs.getD 1 0 % 256, bs.getD 2 0 % 256,
        bs.getD 3 0 % 256⟩
      let r := decLoop (idxSet idx (pxHash p) p) p (space - 1) (bs.drop 4)
      (p :: r.1, r.2)
  termination_by bytes.length
  decreasing_by
    all_goals simp only [List.length_cons, List.length_drop]
    all_goals omega

/-- `d[i]<<24 | d[i+1]<<16 | d[i+2]<<8 | d[i+3]` with JavaScript 32-bit
signed shift/or semantics (negative when the top byte is at least 128). -/
def jsInt32BE (b0 b1 b2 b3 : Nat) : Int :=
  let v := b0 % 256 * 16777216 + b1 % 256 * 65536 + b2 % 256 * 256 + b3 % 256
  if v < 2147483648 then (v : Int) else (v : Int) - 4294967296

/-- `QoiDecoder.decode(d)`: width/height from the big-endian header words,
`pixels = width*height`, decode of the opcode bytes `d[14 .. length-8)`,
returned view of `pixels*4` bytes.  When the opcode stream does not write
exactly `pixels` pixels the returned view exposes unspecified memory;
modelled as `none`. -/
def qoiDecode (d : List Nat) : Int × Int × Option (List Nat) :=
  let w := jsInt32BE (d.getD 4 0) (d.getD 5 0) (d.getD 6 0) (d.getD 7 0)
  let h := jsInt32BE (d.getD 8 0) (d.getD 9 0) (d.getD 10 0) (d.getD 11 0)
  let pixels := (w * h).toNat
  let ops := (d.take (d.length - 8)).drop 14
  let res := decLoop initIdx initPx pixels ops
  (w, h, if res.1.length = pixels then some (pxToBytes res.1) else none)

/-! ## QOI lemmas -/

def WfPx (p : Px) : Prop := p.r < 256 ∧ p.g < 256 ∧ p.b < 256 ∧ p.a < 256

theorem pxHash_lt (p : Px) : pxHash p < 64 := Nat.mod_lt _ (by norm_num)

theorem idxSet_length (idx : List Px) (i : Nat) (p : Px) :
    (idxSet idx i p).length = idx.length := by
  simp [idxSet]

theorem idxGet_set_self (idx : List Px) (i : Nat) (p : Px) (h : i < idx.length) :
    idxGet (idxSet idx i p) i = p := by
  simp [idxGet, idxSet, List.getD_eq_getElem?_getD, List.getElem?_set_self, h]

theorem idxGet_set_ne (idx : List Px) (i j : Nat) (p : Px) (h : i ≠ j) :
    idxGet (idxSet idx i p) j = idxGet idx j := by
  simp [idxGet, idxSet, List.getD_eq_getElem?_getD, List.getElem?_set_ne h]

theorem bytesToPx_length : ∀ l : List Nat, (bytesToPx l).length = l.length / 4
  | [] => rfl
  | [x] => by
    rw [show bytesToPx [x] = [] from rfl]
    simp
  | [x, y] => by
    rw [show bytesToPx [x, y] = [] from rfl]
    simp
  | [x, y, z] => by
    rw [show bytesToPx [x, y, z] = [] from rfl]
    simp
  | _ :: _ :: _ :: _ :: rest => by
    simp only [bytesToPx, List.length_cons, bytesToPx_length rest]
    omega

theorem bytesToPx_wf : ∀ l : List Nat, (∀ x ∈ l, x < 256) →
    ∀ p ∈ bytesToPx l, WfPx p
  | [], _, p, hp => by simp [bytesToPx] at hp
  | [_], h, p, hp => by simp [bytesToPx] at hp
  | [_, _], h, p, hp => by simp [bytesToPx] at hp
  | [_, _, _], h, p, hp => by simp [bytesToPx] at hp
  | r :: g :: b :: a :: rest, h, p, hp => by
    simp only [bytesToPx, List.mem_cons] at hp
    rcases hp with rfl | hp
    · exact ⟨h r (by simp), h g (by simp), h b (by simp), h a (by simp)⟩
    · exact bytesToPx_wf rest (fun x hx => h x (by simp [hx])) p hp

theorem pxToBytes_bytesToPx : ∀ l : List Nat, l.length % 4 = 0 →
    pxToBytes (bytesToPx l) = l
  | [], _ => rfl
  | [_], h => by simp at h
  | [_, _], h => by simp at h
  | [_, _, _], h => by simp at h
  | r :: g :: b :: a :: rest, h => by
    have hr : rest.length % 4 = 0 := by
      simp only [List.length_cons] at h; omega
    simp only [bytesToPx, pxToBytes, pxToBytes_bytesToPx rest hr]

theorem runEmit_exact (p : Px) : ∀ (lo space : Nat), lo + 1 ≤ space →
    runEmit p lo space = List.replicate (lo + 1) p
  | 0, _, _ => by simp [runEmit]
  | lo + 1, space, h => by
    simp only [runEmit]
    rw [if_pos (by omega), runEmit_exact p lo (space - 1) (by omega)]
    simp [List.replicate_succ]

theorem pxExt (p q : Px) (h1 : p.r = q.r) (h2 : p.g = q.g) (h3 : p.b = q.b)
    (h4 : p.a = q.a) : p = q := by
  cases p; cases q; simp_all

/-- Decoder step: a cache-index opcode (tag 00) emits the cached pixel and
leaves the cache alone. -/
theorem decLoop_index (idx : List Px) (px : Px) (space b : Nat) (bs : List Nat)
    (h : b < 64) :
    decLoop idx px space (b :: bs)
      = ((idxGet idx b) :: (decLoop idx (idxGet idx b) (space - 1) bs).1,
         (decLoop idx (idxGet idx b) (space - 1) bs).2) := by
  rw [decLoop.eq_def]
  have hb : b % 256 = b := Nat.mod_eq_of_lt (by omega)
  simp only [hb]
  rw [if_pos h]

/-- Decoder step: a run opcode `0xC0 + lo` (`lo < 62`) with enough
destination space emits `lo + 1` copies of the previous pixel and writes
that pixel into its cache slot. -/
theorem decLoop_run (idx : List Px) (px : Px) (lo space : Nat) (bs : List Nat)
    (hlo : lo < 62) (hsp : lo + 1 ≤ space) :
    decLoop idx px space ((192 + lo) :: bs)
      = (List.replicate (lo + 1) px ++
          (decLoop (idxSet idx (pxHash px) px) px (space - (lo + 1)) bs).1,
         (decLoop (idxSet idx (pxHash px) px) px (space - (lo + 1)) bs).2) := by
  rw [decLoop.eq_def]
  have hb : (192 + lo) % 256 = 192 + lo := Nat.mod_eq_of_lt (by omega)
  have h64 : (192 + lo) % 64 = lo := by omega
  simp only [hb, h64]
  rw [if_neg (by omega), if_neg (by omega), if_neg (by omega), if_pos (by omega),
    runEmit_exact px lo space hsp]
  simp [List.length_replicate]

/-- The mod-256 inverse of the diff delta encoding, unconditionally. -/
theorem qoiDiffChannel (x p : Nat) (hx : x < 256) (hp : p < 256) :
    (p + (u32sub x p + 2) % U32 + 254) % 256 = x := by
  unfold u32sub U32
  omega

theorem qoiLumaG (g pg : Nat) (hg : g < 256) (hpg : pg < 256) :
    (pg + (u32sub g pg + 32) % U32 + 224) % 256 = g := by
  unfold u32sub U32
  omega

theorem qoiLumaRB (x p g pg : Nat) (hx : x < 256) (hp : p < 256)
    (hg : g < 256) (hpg : pg < 256) :
    (p + (u32sub g pg + 32) % U32 +
      (u32sub (u32sub x p) (u32sub g pg) + 8) % U32 + 216) % 256 = x := by
  unfold u32sub U32
  omega

/-- `diffPx` on an assembled diff opcode recovers the per-channel deltas. -/
theorem diffPx_decomp (px : Px) (dr dg db : Nat) (h1 : dr < 4) (h2 : dg < 4)
    (h3 : db < 4) :
    diffPx px (64 + dr * 16 + dg * 4 + db)
      = ⟨(px.r + dr + 254) % 256, (px.g + dg + 254) % 256,
         (px.b + db + 254) % 256, px.a⟩ := by
  cases px with
  | mk r g b a =>
    simp only [diffPx, Px.mk.injEq]
    refine ⟨?_, ?_, ?_, trivial⟩ <;> omega

/-- `lumaPx` on an assembled luma opcode pair recovers the nibbles. -/
theorem lumaPx_decomp (px : Px) (dg rb bb : Nat) (h2 : dg < 64) (h1 : rb < 16)
    (h3 : bb < 16) :
    lumaPx px (128 + dg) (rb * 16 + bb)
      = ⟨(px.r + dg + rb + 216) % 256, (px.g + dg + 224) % 256,
         (px.b + dg + bb + 216) % 256, px.a⟩ := by
  cases px with
  | mk r g b a =>
    simp only [lumaPx, Px.mk.injEq]
    refine ⟨?_, ?_, ?_, trivial⟩ <;> omega

/-- Decoder step: the opcode bytes the encoder emits for a non-run,
non-cache-hit pixel decode back to exactly that pixel, writing it into its
cache slot. -/
theorem decLoop_encPx (idx : List Px) (prev px : Px) (space : Nat) (bs : List Nat)
    (hwpx : WfPx px) (hwprev : WfPx prev) :
    decLoop idx prev space (encPx px prev ++ bs)
      = (px :: (decLoop (idxSet idx (pxHash px) px) px (space - 1) bs).1,
         (decLoop (idxSet idx (pxHash px) px) px (space - 1) bs).2) := by
  obtain ⟨hxr, hxg, hxb, hxa⟩ := hwpx
  obtain ⟨hpr, hpg, hpb, hpa⟩ := hwprev
  unfold encPx
  by_cases haa : px.a = prev.a
  · rw [if_pos haa]
    by_cases hdiff : (u32sub px.r prev.r + 2) % U32 < 4 ∧
        (u32sub px.g prev.g + 2) % U32 < 4 ∧ (u32sub px.b prev.b + 2) % U32 < 4
    · rw [if_pos hdiff]
      obtain ⟨hd1, hd2, hd3⟩ := hdiff
      have hB : (64 + (u32sub px.r prev.r + 2) % U32 * 16 +
          (u32sub px.g prev.g + 2) % U32 * 4 + (u32sub px.b prev.b + 2) % U32) % 256
          = 64 + (u32sub px.r prev.r + 2) % U32 * 16 +
            (u32sub px.g prev.g + 2) % U32 * 4 + (u32sub px.b prev.b + 2) % U32 := by
        omega
      have hpx : diffPx prev (64 + (u32sub px.r prev.r + 2) % U32 * 16 +
          (u32sub px.g prev.g + 2) % U32 * 4 + (u32sub px.b prev.b + 2) % U32) = px := by
        rw [diffPx_decomp prev _ _ _ hd1 hd2 hd3]
        exact pxExt _ _ (qoiDiffChannel px.r prev.r hxr hpr)
          (qoiDiffChannel px.g prev.g hxg hpg) (qoiDiffChannel px.b prev.b hxb hpb)
          haa.symm
      rw [List.cons_append, List.nil_append, decLoop.eq_def]
      simp only [hB]
      rw [if_neg (by omega), if_pos (by omega)]
      simp only [hpx]
    · rw [if_neg hdiff]
      by_cases hluma : (u32sub (u32sub px.r prev.r) (u32sub px.g prev.g) + 8) % U32 < 16 ∧
          (u32sub px.g prev.g + 32) % U32 < 64 ∧
          (u32sub (u32sub px.b prev.b) (u32sub px.g prev.g) + 8) % U32 < 16
      · rw [if_pos hluma]
        obtain ⟨hl1, hl2, hl3⟩ := hluma
        have hB1 : (128 + (u32sub px.g prev.g + 32) % U32) % 256
            = 128 + (u32sub px.g prev.g + 32) % U32 := by omega
        have hpx : lumaPx prev (128 + (u32sub px.g prev.g + 32) % U32)
            ((u32sub (u32sub px.r prev.r) (u32sub px.g prev.g) + 8) % U32 * 16 +
              (u32sub (u32sub px.b prev.b) (u32sub px.g prev.g) + 8) % U32) = px := by
          rw [lumaPx_decomp prev _ _ _ hl2 hl1 hl3]
          exact pxExt _ _ (qoiLumaRB px.r prev.r px.g prev.g hxr hpr hxg hpg)
            (qoiLumaG px.g prev.g hxg hpg)
            (qoiLumaRB px.b prev.b px.g prev.g hxb hpb hxg hpg) haa.symm
        rw [List.cons_append, List.cons_append, List.nil_append, decLoop.eq_def]
        simp only [hB1]
        rw [if_neg (by omega), if_neg (by omega), if_pos (by omega)]
        simp only [List.getD_cons_zero, List.drop_succ_cons, List.drop_zero]
        simp only [hpx]
      · rw [if_neg hluma]
        have hpx : (⟨px.r % 256, px.g % 256, px.b % 256, prev.a⟩ : Px) = px :=
          pxExt _ _ (Nat.mod_eq_of_lt hxr) (Nat.mod_eq_of_lt hxg)
            (Nat.mod_eq_of_lt hxb) haa.symm
        rw [List.cons_append, List.cons_append, List.cons_append, List.cons_append,
          List.nil_append, decLoop.eq_def]
        norm_num [hpx]
  · rw [if_neg haa]
    have hpx : (⟨px.r % 256, px.g % 256, px.b % 256, px.a % 256⟩ : Px) = px :=
      pxExt _ _ (Nat.mod_eq_of_lt hxr) (Nat.mod_eq_of_lt hxg)
        (Nat.mod_eq_of_lt hxb) (Nat.mod_eq_of_lt hxa)
    rw [List.cons_append, List.cons_append, List.cons_append, List.cons_append,
      List.cons_append, List.nil_append, decLoop.eq_def]
    norm_num [hpx]

/-- Relation between the encoder's and the decoder's caches during a
round trip: they agree on every slot whose encoder entry hashes to that slot
(the only slots the encoder can emit INDEX opcodes for), and the previous
pixel's slot either already holds it or holds a hash-mismatched entry (then
the decoder's run-opcode cache write cannot break the agreement). -/
def EncDecInv (eIdx dIdx : List Px) (prev : Px) : Prop :=
  (∀ s, s < 64 → pxHash (idxGet eIdx s) = s → idxGet dIdx s = idxGet eIdx s) ∧
  (idxGet eIdx (pxHash prev) = prev ∨ pxHash (idxGet eIdx (pxHash prev)) ≠ pxHash prev)

/-- The decoder's run-opcode write of the previous pixel preserves the cache
relation. -/
theorem encDecInv_runwrite (eIdx dIdx : List Px) (prev : Px)
    (hinv : EncDecInv eIdx dIdx prev) (hld : dIdx.length = 64) :
    EncDecInv eIdx (idxSet dIdx (pxHash prev) prev) prev := by
  obtain ⟨hA, hB⟩ := hinv
  refine ⟨?_, hB⟩
  intro s hs hh
  by_cases hse : pxHash prev = s
  · subst hse
    rw [idxGet_set_self _ _ _ (by rw [hld]; exact pxHash_lt prev)]
    rcases hB with hb | hb
    · exact hb.symm
    · exact absurd hh hb
  · rw [idxGet_set_ne _ _ _ _ hse]
    exact hA s hs hh

/-- A simultaneous cache write of a fresh pixel (non-run, non-hit opcode)
preserves the cache relation, with the fresh pixel as the new previous. -/
theorem encDecInv_write (eIdx dIdx : List Px) (prev px : Px)
    (hinv : EncDecInv eIdx dIdx prev) (hle : eIdx.length = 64)
    (hld : dIdx.length = 64) :
    EncDecInv (idxSet eIdx (pxHash px) px) (idxSet dIdx (pxHash px) px) px := by
  obtain ⟨hA, _⟩ := hinv
  constructor
  · intro s hs hh
    by_cases hse : pxHash px = s
    · subst hse
      rw [idxGet_set_self _ _ _ (by rw [hld]; exact pxHash_lt px),
        idxGet_set_self _ _ _ (by rw [hle]; exact pxHash_lt px)]
    · rw [idxGet_set_ne _ _ _ _ hse] at hh
      rw [idxGet_set_ne _ _ _ _ hse, idxGet_set_ne _ _ _ _ hse]
      exact hA s hs hh
  · left
    rw [idxGet_set_self _ _ _ (by rw [hle]; exact pxHash_lt px)]

/-- Main round-trip lemma: decoding the encoder's opcode stream from related
states reproduces the pending run copies followed by the remaining pixels.
`run` pending copies of `prev` are pixels the encoder has consumed but not
yet flushed; the destination space is exactly the number of pixels still
owed. -/
theorem decLoop_encLoop : ∀ (pxs : List Px) (eIdx dIdx : List Px) (prev : Px)
    (run : Nat),
    (∀ p ∈ pxs, WfPx p) → WfPx prev →
    eIdx.length = 64 → dIdx.length = 64 →
    EncDecInv eIdx dIdx prev →
    run ≤ 61 → (pxs = [] → run = 0) →
    (decLoop dIdx prev (run + pxs.length) (encLoop eIdx prev run pxs)).1
      = List.replicate run prev ++ pxs
  | [], eIdx, dIdx, prev, run, _, _, _, _, _, _, hrun0 => by
    rw [hrun0 rfl]
    simp only [encLoop]
    rw [decLoop.eq_def]
    simp
  | px :: rest, eIdx, dIdx, prev, run, hwf, hwprev, hle, hld, hinv, hrun, _ => by
    have hwfpx : WfPx px := hwf px (by simp)
    have wfs : ∀ p ∈ rest, WfPx p := fun p hp => hwf p (by simp [hp])
    simp only [encLoop]
    by_cases he : px = prev
    · rw [if_pos he]
      by_cases hf : run + 1 = 62 ∨ rest = []
      · rw [if_pos hf]
        have hsp : run + 1 ≤ run + (px :: rest).length := by
          simp only [List.length_cons]; omega
        rw [decLoop_run dIdx prev run (run + (px :: rest).length) _ (by omega) hsp]
        have harith : run + (px :: rest).length - (run + 1) = 0 + rest.length := by
          simp only [List.length_cons]; omega
        rw [harith]
        have ih := decLoop_encLoop rest eIdx (idxSet dIdx (pxHash prev) prev) prev 0
          wfs hwprev hle (by rw [idxSet_length]; exact hld)
          (encDecInv_runwrite eIdx dIdx prev hinv hld) (by omega) (fun _ => rfl)
        simp only [ih, List.replicate_zero, List.nil_append, he]
        rw [List.replicate_succ' run prev]
        simp
      · rw [if_neg hf]
        push_neg at hf
        have ih := decLoop_encLoop rest eIdx dIdx prev (run + 1)
          wfs hwprev hle hld hinv (by omega) (fun hh => absurd hh hf.2)
        have harith : run + (px :: rest).length = run + 1 + rest.length := by
          simp only [List.length_cons]; omega
        rw [harith, ih, he, List.replicate_succ' run prev]
        simp
    · rw [if_neg he]
      have hcont : ∀ dIdx1 : List Px, dIdx1.length = 64 → EncDecInv eIdx dIdx1 prev →
          (decLoop dIdx1 prev (1 + rest.length)
            (if idxGet eIdx (pxHash px) = px then
              pxHash px :: encLoop eIdx px 0 rest
            else encPx px prev ++ encLoop (idxSet eIdx (pxHash px) px) px 0 rest)).1
          = px :: rest := by
        intro dIdx1 hld1 hinv1
        by_cases hi : idxGet eIdx (pxHash px) = px
        · rw [if_pos hi]
          rw [decLoop_index dIdx1 prev (1 + rest.length) (pxHash px) _ (pxHash_lt px)]
          have hdi : idxGet dIdx1 (pxHash px) = px := by
            have h := hinv1.1 (pxHash px) (pxHash_lt px) (by rw [hi])
            rw [hi] at h; exact h
          have ih := decLoop_encLoop rest eIdx dIdx1 px 0 wfs hwfpx hle hld1
            ⟨hinv1.1, Or.inl hi⟩ (by omega) (fun _ => rfl)
          rw [show 1 + rest.length - 1 = 0 + rest.length by omega] at *
          simp only [hdi, ih, List.replicate_zero, List.nil_append]
        · rw [if_neg hi]
          rw [decLoop_encPx dIdx1 prev px _ _ hwfpx hwprev]
          have ih := decLoop_encLoop rest (idxSet eIdx (pxHash px) px)
            (idxSet dIdx1 (pxHash px) px) px 0 wfs hwfpx
            (by rw [idxSet_length]; exact hle) (by rw [idxSet_length]; exact hld1)
            (encDecInv_write eIdx dIdx1 prev px hinv1 hle hld1) (by omega)
            (fun _ => rfl)
          rw [show 1 + rest.length - 1 = 0 + rest.length by omega]
          simp only [ih, List.replicate_zero, List.nil_append]
      by_cases hr : run = 0
      · rw [if_neg (by simp [hr])]
        rw [List.nil_append]
        have h := hcont dIdx hld hinv
        rw [show run + (px :: rest).length = 1 + rest.length by
          simp only [List.length_cons]; omega]
        rw [h, hr]
        simp
      · rw [if_pos (by simp [hr])]
        rw [List.singleton_append]
        rw [decLoop_run dIdx prev (run - 1) (run + (px :: rest).length) _ (by omega)
          (by simp only [List.length_cons]; omega)]
        have harith : run + (px :: rest).length - (run - 1 + 1) = 1 + rest.length := by
          simp only [List.length_cons]; omega
        rw [harith]
        have h := hcont (idxSet dIdx (pxHash prev) prev)
          (by rw [idxSet_length]; exact hld)
          (encDecInv_runwrite eIdx dIdx prev hinv hld)
        simp only [h]
        rw [show run - 1 + 1 = run by omega]

theorem jsInt32BE_be32 (w : Nat) (hw : w < 2147483648) :
    jsInt32BE (w / 16777216 % 256) (w / 65536 % 256) (w / 256 % 256) (w % 256)
      = (w : Int) := by
  have hv : w / 16777216 % 256 % 256 * 16777216 + w / 65536 % 256 % 256 * 65536 +
      w / 256 % 256 % 256 * 256 + w % 256 % 256 = w := by omega
  simp only [jsInt32BE, hv]
  rw [if_pos hw]

/-- **C1**.  For every valid RGBA buffer (length `w*h*4`, byte values, `w`
and `h` positive and below `2^31` so the JS header readout is exact),
decoding the encoder's output reproduces the buffer bit-for-bit and reports
the same width and height. -/
theorem c1_qoi_roundtrip (d : List Nat) (w h : Nat) (hw : 0 < w) (hh : 0 < h)
    (hwb : w < 2147483648) (hhb : h < 2147483648)
    (hlen : d.length = w * h * 4) (hbytes : ∀ x ∈ d, x < 256) :
    qoiDecode (qoiEncode d w h) = ((w : Int), (h : Int), some d) := by
  have htake : d.take (w * h * 4) = d := by
    rw [← hlen]; exact List.take_length d
  have hpl : (bytesToPx d).length = w * h := by
    rw [bytesToPx_length, hlen]; omega
  have hE : qoiEncode d w h
      = qoiHeader w h ++ (encLoop initIdx initPx 0 (bytesToPx d) ++ qoiTrailer) := by
    unfold qoiEncode
    rw [htake, List.append_assoc]
  have hHlen : (qoiHeader w h).length = 14 := by
    simp [qoiHeader, be32]
  have hhead : qoiHeader w h
      = [113, 111, 105, 102, w / 16777216 % 256, w / 65536 % 256, w / 256 % 256,
         w % 256, h / 16777216 % 256, h / 65536 % 256, h / 256 % 256, h % 256,
         4, 0] := rfl
  have hgetD : ∀ i, i < 14 → (qoiEncode d w h).getD i 0 = (qoiHeader w h).getD i 0 := by
    intro i hi
    rw [hE]
    exact List.getD_append _ _ _ i (by omega)
  have hElen : (qoiEncode d w h).length
      = 14 + (encLoop initIdx initPx 0 (bytesToPx d)).length + 8 := by
    rw [hE]
    simp only [List.length_append, hHlen, qoiTrailer]
    simp
    omega
  have hops : ((qoiEncode d w h).take ((qoiEncode d w h).length - 8)).drop 14
      = encLoop initIdx initPx 0 (bytesToPx d) := by
    rw [hElen, hE]
    have h1 : 14 + (encLoop initIdx initPx 0 (bytesToPx d)).length + 8 - 8
        = (qoiHeader w h).length + (encLoop initIdx initPx 0 (bytesToPx d)).length := by
      rw [hHlen]
      omega
    rw [h1, List.take_append, List.take_left, List.drop_left' hHlen]
  have hw4 : (qoiEncode d w h).getD 4 0 = w / 16777216 % 256 := by
    rw [hgetD 4 (by omega), hhead]; rfl
  have hw5 : (qoiEncode d w h).getD 5 0 = w / 65536 % 256 := by
    rw [hgetD 5 (by omega), hhead]; rfl
  have hw6 : (qoiEncode d w h).getD 6 0 = w / 256 % 256 := by
    rw [hgetD 6 (by omega), hhead]; rfl
  have hw7 : (qoiEncode d w h).getD 7 0 = w % 256 := by
    rw [hgetD 7 (by omega), hhead]; rfl
  have hh8 : (qoiEncode d w h).getD 8 0 = h / 16777216 % 256 := by
    rw [hgetD 8 (by omega), hhead]; rfl
  have hh9 : (qoiEncode d w h).getD 9 0 = h / 65536 % 256 := by
    rw [hgetD 9 (by omega), hhead]; rfl
  have hh10 : (qoiEncode d w h).getD 10 0 = h / 256 % 256 := by
    rw [hgetD 10 (by omega), hhead]; rfl
  have hh11 : (qoiEncode d w h).getD 11 0 = h % 256 := by
    rw [hgetD 11 (by omega), hhead]; rfl
  have hwread : jsInt32BE ((qoiEncode d w h).getD 4 0) ((qoiEncode d w h).getD 5 0)
      ((qoiEncode d w h).getD 6 0) ((qoiEncode d w h).getD 7 0) = (w : Int) := by
    rw [hw4, hw5, hw6, hw7]; exact jsInt32BE_be32 w hwb
  have hhread : jsInt32BE ((qoiEncode d w h).getD 8 0) ((qoiEncode d w h).getD 9 0)
      ((qoiEncode d w h).getD 10 0) ((qoiEncode d w h).getD 11 0) = (h : Int) := by
    rw [hh8, hh9, hh10, hh11]; exact jsInt32BE_be32 h hhb
  have hpxnat : ((w : Int) * (h : Int)).toNat = w * h := by
    rw [← Nat.cast_mul, Int.toNat_natCast]
  have hmain := decLoop_encLoop (bytesToPx d) initIdx initIdx initPx 0
    (bytesToPx_wf d hbytes) (by refine ⟨?_, ?_, ?_, ?_⟩ <;> norm_num [initPx])
    (by simp [initIdx]) (by simp [initIdx])
    ⟨fun s hs hh => rfl, Or.inr (by decide)⟩ (by omega) (fun _ => rfl)
  simp only [Nat.zero_add, List.replicate_zero, List.nil_append] at hmain
  rw [hpl] at hmain
  simp only [qoiDecode, hwread, hhread, hpxnat, hops, hmain, hpl, if_true]
  rw [pxToBytes_bytesToPx d (by rw [hlen]; omega)]

/-- **C1** (witness): round trip of a concrete 2x2 RGBA buffer exercising
run, diff and RGBA opcodes. -/
theorem c1_qoi_roundtrip_witness :
    qoiDecode (qoiEncode
        [0, 0, 0, 255, 0, 0, 0, 255, 1, 1, 1, 255, 10, 20, 30, 40] 2 2)
      = (2, 2, some [0, 0, 0, 255, 0, 0, 0, 255, 1, 1, 1, 255, 10, 20, 30, 40]) :=
  c1_qoi_roundtrip [0, 0, 0, 255, 0, 0, 0, 255, 1, 1, 1, 255, 10, 20, 30, 40] 2 2
    (by norm_num) (by norm_num) (by norm_num) (by norm_num) (by decide) (by decide)

/-- **C5** (counterexample).  The run opcode does modify the 64-entry color
cache: decoding the single run opcode `0xC0` from the initial state writes
the previous pixel (0,0,0,255) into its hash slot 53 (initially zero), so
the cache after the opcode differs from the initial cache. -/
theorem c5_run_modifies_cache :
    (decLoop initIdx initPx 1 [192]).2.1 ≠ initIdx := by
  have h := decLoop_run initIdx initPx 0 1 [] (by norm_num) (by norm_num)
  norm_num at h
  have hnil : decLoop (idxSet initIdx (pxHash initPx) initPx) initPx 0 []
      = ([], idxSet initIdx (pxHash initPx) initPx, initPx) := by
    rw [decLoop.eq_def]
  rw [h, hnil]
  decide

/-- **C5** (amended).  A byte with 2-bit tag `11` whose low 6 bits `lo` are
below the two full-pixel sentinels makes the decoder emit the previous
pixel `lo + 1` times (at most 62, given destination space), and it writes
the previous pixel into its cache hash slot (a cache write, harmless only
when that slot already held the pixel). -/
theorem c5_run_amended (idx : List Px) (px : Px) (lo space : Nat) (bs : List Nat)
    (hlo : lo < 62) (hsp : lo + 1 ≤ space) :
    decLoop idx px space ((192 + lo) :: bs)
      = (List.replicate (lo + 1) px ++
          (decLoop (idxSet idx (pxHash px) px) px (space - (lo + 1)) bs).1,
         (decLoop (idxSet idx (pxHash px) px) px (space - (lo + 1)) bs).2) :=
  decLoop_run idx px lo space bs hlo hsp

/-- **C5** (witness): the amended run rule at the opcode `0xC1` (`lo = 1`)
from the initial state with space 2. -/
theorem c5_run_amended_witness :
    decLoop initIdx initPx 2 [193]
      = (List.replicate 2 initPx ++
          (decLoop (idxSet initIdx (pxHash initPx) initPx) initPx 0 []).1,
         (decLoop (idxSet initIdx (pxHash initPx) initPx) initPx 0 []).2) := by
  have h := c5_run_amended initIdx initPx 1 2 [] (by norm_num) (by norm_num)
  norm_num at h
  exact h

theorem encPx_length_le (px prev : Px) : (encPx px prev).length ≤ 5 := by
  simp only [encPx]
  split_ifs <;> simp

theorem encLoop_length_le : ∀ (pxs : List Px) (idx : List Px) (prev : Px) (run : Nat),
    (encLoop idx prev run pxs).length ≤ 5 * pxs.length + (if run = 0 then 0 else 1)
  | [], idx, prev, run => by
    simp only [encLoop, List.length_nil]
    split <;> omega
  | px :: rest, idx, prev, run => by
    simp only [encLoop]
    by_cases he : px = prev
    · rw [if_pos he]
      by_cases hf : run + 1 = 62 ∨ rest = []
      · rw [if_pos hf]
        have ih : (encLoop idx prev 0 rest).length ≤ 5 * rest.length := by
          simpa using encLoop_length_le rest idx prev 0
        simp only [List.length_cons]
        split <;> omega
      · rw [if_neg hf]
        have ih := encLoop_length_le rest idx prev (run + 1)
        rw [if_neg (by omega)] at ih
        simp only [List.length_cons]
        split <;> omega
    · rw [if_neg he]
      have hfl : (if run ≠ 0 then [192 + (run - 1)] else ([] : List Nat)).length ≤ 1 := by
        split <;> simp
      have hop := encPx_length_le px prev
      by_cases hi : idxGet idx (pxHash px) = px
      · rw [if_pos hi]
        have ih : (encLoop idx px 0 rest).length ≤ 5 * rest.length := by
          simpa using encLoop_length_le rest idx px 0
        simp only [List.length_append, List.length_cons]
        by_cases hr : run = 0
        · rw [if_pos hr]; omega
        · rw [if_neg hr]; omega
      · rw [if_neg hi]
        have ih : (encLoop (idxSet idx (pxHash px) px) px 0 rest).length
            ≤ 5 * rest.length := by
          simpa using encLoop_length_le rest (idxSet idx (pxHash px) px) px 0
        simp only [List.length_append, List.length_cons]
        by_cases hr : run = 0
        · rw [if_pos hr, if_neg (by simp [hr])]
          simp only [List.length_nil]
          omega
        · rw [if_neg hr]; omega

/-- **C9**.  The encoder's output never exceeds `w*h*5 + 22` bytes
(14 header bytes, at most 5 bytes per pixel, 8 end-marker bytes) — the
bound used to size the destination buffer. -/
theorem c9_encode_size_bound (d : List Nat) (w h : Nat) :
    (qoiEncode d w h).length ≤ w * h * 5 + 22 := by
  have hel : (encLoop initIdx initPx 0 (bytesToPx (d.take (w * h * 4)))).length
      ≤ 5 * (bytesToPx (d.take (w * h * 4))).length := by
    simpa using encLoop_length_le (bytesToPx (d.take (w * h * 4))) initIdx initPx 0
  have hbl : (bytesToPx (d.take (w * h * 4))).length
      = (d.take (w * h * 4)).length / 4 := bytesToPx_length _
  have htl : (d.take (w * h * 4)).length ≤ w * h * 4 := by
    simp [List.length_take]
  have hhl : (qoiHeader w h).length = 14 := by simp [qoiHeader, be32]
  have htr : qoiTrailer.length = 8 := by simp [qoiTrailer]
  simp only [qoiEncode, List.length_append, hhl, htr]
  omega

/-- **C8**.  After `init(size)` with no symbol consumed, `end()` reports
failure in both decoder variants (part_008 returns `true`, the wasm variant
of part_006 returns 1), for every declared byte size including 0: an empty
payload can never complete a decode successfully. -/
theorem c8_empty_end_fails (size : Nat) :
    (b64end (b64init size)).1 = true ∧ (wend (b64init size)).1 = 1 := by
  constructor <;>
    simp [b64end, b64endTail, wend, wendTail, b64init, B64St.wp]

end XtermImage
